import Mathlib

/-!
Verification of the `zipped` crate (src/lib.rs): flattening of left- or
right-recursively zipped tuples into flat tuples, for arities 1..26, plus
generic lifters through `Option` and `Result` and the ergonomic
`UnzipInto` counterpart of `UnzipFrom`.

Two embeddings of the source are used:

1. A typed model of the generic items: the traits `UnzipFrom` / `UnzipInto`
   (classes `UnzipFromC` / `UnzipIntoC`), the blanket `UnzipInto` impl, the
   `Option` and `Result` lifter impls (Rust `Result<T, E>` is Lean
   `Except E T`), and the arity-2 identity impl on pairs.

2. An untyped model of the macro-generated arity family, since Lean has no
   primitive flat n-tuples: `Ty` is the grammar of the Rust types involved
   (type variables, tuples, `Option`, `Result`), `Value` the corresponding
   values.  `leftTy`/`rightTy` and `leftVal`/`rightVal` transcribe the
   `left!` and `right!` macros; the inductive relation `UnzipFrom tgt src`
   enumerates exactly the impls the crate declares (`(A,)`, `(A, B)`, the
   `nested!` family for arities 3..26, and the two lifters); and
   `leftMatch`/`rightMatch` transcribe the irrefutable destructuring
   patterns `let left!(..) = zip` / `let right!(..) = zip` in the generated
   impl bodies, with `none` marking a value whose shape the pattern (hence
   the Rust type) rules out.
-/

namespace Zipped

/-- Typed model of `trait UnzipFrom<T>`: `UnzipFromC T S` means the target
type `T` can be produced by unzipping a source value of type `S`
(`impl UnzipFrom<S> for T`). -/
class UnzipFromC (T : Type) (S : Type) where
  unzip_from : S → T

/-- Typed model of `trait UnzipInto<T>`. -/
class UnzipIntoC (S : Type) (T : Type) where
  unzip_into : S → T

/-- The blanket impl `impl<T, U> UnzipInto<T> for U where T: UnzipFrom<U>`,
whose body is exactly `T::unzip_from(self)`. -/
instance instUnzipIntoOfFrom {T S : Type} [UnzipFromC T S] : UnzipIntoC S T where
  unzip_into x := UnzipFromC.unzip_from x

/-- The `Option` lifter `impl<T, U> UnzipFrom<Option<T>> for Option<U>`,
whose body is `tuple.map(UnzipFrom::unzip_from)`. -/
instance instUnzipFromOption {T S : Type} [UnzipFromC T S] :
    UnzipFromC (Option T) (Option S) where
  unzip_from t := t.map UnzipFromC.unzip_from

/-- The `Result` lifter `impl<T, E, U> UnzipFrom<Result<T, E>> for Result<U, E>`,
whose body is `tuple.map(UnzipFrom::unzip_from)`; `Result<T, E>` is
`Except E T`. -/
instance instUnzipFromExcept {T S E : Type} [UnzipFromC T S] :
    UnzipFromC (Except E T) (Except E S) where
  unzip_from t := t.map UnzipFromC.unzip_from

/-- The arity-2 identity impl `impl<A, B> UnzipFrom<(A, B)> for (A, B)`,
whose body returns `tuple` unchanged. -/
instance instUnzipFromPair {A B : Type} : UnzipFromC (A × B) (A × B) where
  unzip_from t := t

/-- Grammar of the Rust types the crate's impls range over: type variables
(`base`), tuples of any arity, `Option`, and `Result` with its error type. -/
inductive Ty : Type where
  | base : Nat → Ty
  | tuple : List Ty → Ty
  | option : Ty → Ty
  | result : Ty → Ty → Ty

/-- Helper for `leftTy`: the accumulator of the `left!` macro's recursion
`left!(($a, $b) $($c)*)`. -/
def leftTyAux (acc : Ty) : List Ty → Ty
  | [] => acc
  | b :: rest => leftTyAux (Ty.tuple [acc, b]) rest

/-- The `left!` macro on types: `left!(a) = a`, `left!(a b) = (a, b)`,
`left!(a b c ...) = left!((a, b) c ...)`.  The empty list never arises
(every use has arity at least 1). -/
def leftTy : List Ty → Ty
  | [] => Ty.tuple []
  | a :: rest => leftTyAux a rest

/-- The `right!` macro on types: `right!(a) = a`, `right!(a b) = (a, b)`,
`right!(a b c ...) = (a, (b, right!(c ...)))`. -/
def rightTy : List Ty → Ty
  | [] => Ty.tuple []
  | [a] => a
  | [a, b] => Ty.tuple [a, b]
  | a :: b :: c :: rest => Ty.tuple [a, Ty.tuple [b, rightTy (c :: rest)]]

/-- The set of `UnzipFrom` impls the crate declares, as a relation
`UnzipFrom tgt src` (= `impl UnzipFrom<src> for tgt`):
`(A,)` from `(A,)`, `(A, B)` from `(A, B)`, the `nested!` family
(`nested!(A B .. Z)` emits, for every arity 3..26, one impl from the
left-nested shape and one from the right-nested shape to the flat tuple),
and the two generic lifters through `Option` and `Result`. -/
inductive UnzipFrom : Ty → Ty → Prop where
  | one (a : Ty) : UnzipFrom (Ty.tuple [a]) (Ty.tuple [a])
  | two (a b : Ty) : UnzipFrom (Ty.tuple [a, b]) (Ty.tuple [a, b])
  | nestedLeft (tys : List Ty) (h3 : 3 ≤ tys.length) (h26 : tys.length ≤ 26) :
      UnzipFrom (Ty.tuple tys) (leftTy tys)
  | nestedRight (tys : List Ty) (h3 : 3 ≤ tys.length) (h26 : tys.length ≤ 26) :
      UnzipFrom (Ty.tuple tys) (rightTy tys)
  | optionLift {u t : Ty} : UnzipFrom u t → UnzipFrom (Ty.option u) (Ty.option t)
  | resultLift {u t : Ty} (e : Ty) : UnzipFrom u t → UnzipFrom (Ty.result u e) (Ty.result t e)

/-- Values of the types in `Ty`: atoms (leaf element values), tuples, the
two `Option` constructors and the two `Result` constructors. -/
inductive Value : Type where
  | atom : Nat → Value
  | tuple : List Value → Value
  | vnone : Value
  | vsome : Value → Value
  | vok : Value → Value
  | verr : Value → Value

/-- Helper for `leftVal`: the accumulator of the `left!` macro's recursion,
on values. -/
def leftValAux (acc : Value) : List Value → Value
  | [] => acc
  | b :: rest => leftValAux (Value.tuple [acc, b]) rest

/-- The `left!` macro on values: builds the left-nested value
`(((v, v2), v3), ..., vN)` from the leaves `v :: vs` in order. -/
def leftVal (v : Value) (vs : List Value) : Value :=
  leftValAux v vs

/-- The `right!` macro on values: builds the right-nested value
`(v, (v2, (..., vN)))` from the leaves `v :: vs` in order. -/
def rightVal (v : Value) : List Value → Value
  | [] => v
  | [b] => Value.tuple [v, b]
  | b :: c :: rest => Value.tuple [v, Value.tuple [b, rightVal c rest]]

/-- The destructuring `let left!($($ident)*) = zip` done by the generated
left-nested impl for arity `n`: peels the left-nested pattern and returns
the `n` bound leaves in left-to-right order.  `none` marks a value whose
shape the pattern (hence the Rust source type) rules out. -/
def leftMatch : Nat → Value → Option (List Value)
  | 1, v => some [v]
  | n + 2, Value.tuple [l, r] => (leftMatch (n + 1) l).map (fun vs => vs ++ [r])
  | _, _ => none

/-- The destructuring `let right!($($ident)*) = zip` done by the generated
right-nested impl for arity `n`. -/
def rightMatch : Nat → Value → Option (List Value)
  | 1, v => some [v]
  | 2, Value.tuple [a, b] => some [a, b]
  | n + 3, Value.tuple [a, Value.tuple [b, r]] =>
      (rightMatch (n + 1) r).map (fun vs => a :: b :: vs)
  | _, _ => none

/-- The body of the generated impl
`UnzipFrom<left!(A .. )> for (A, ..,)` at arity `n`: destructure the
left-nested source and rebuild the flat tuple of the bound leaves.  The
guard records that `nested!` generates these impls exactly for arities
3 through 26. -/
def leftInst (n : Nat) (v : Value) : Option Value :=
  if 3 ≤ n ∧ n ≤ 26 then (leftMatch n v).map Value.tuple else none

/-- The body of the generated impl
`UnzipFrom<right!(A .. )> for (A, ..,)` at arity `n`. -/
def rightInst (n : Nat) (v : Value) : Option Value :=
  if 3 ≤ n ∧ n ≤ 26 then (rightMatch n v).map Value.tuple else none

/-- The impl `UnzipFrom<(A,)> for (A,)`: the identity on one-element
tuples (its Rust body returns `tuple` unchanged; any other shape is ruled
out by the source type). -/
def unzipOne : Value → Option Value
  | Value.tuple [a] => some (Value.tuple [a])
  | _ => none

/-- The impl `UnzipFrom<(A, B)> for (A, B)`: the identity on two-element
tuples. -/
def unzipTwo : Value → Option Value
  | Value.tuple [a, b] => some (Value.tuple [a, b])
  | _ => none

/-- The `Option` lifter on values, parameterized by the inner capability's
method `f`: `tuple.map(UnzipFrom::unzip_from)` on an `Option` value. -/
def optionInst (f : Value → Option Value) : Value → Option Value
  | Value.vnone => some Value.vnone
  | Value.vsome v => (f v).map Value.vsome
  | _ => none

/-- The `Result` lifter on values, parameterized by the inner capability's
method `f`: `tuple.map(UnzipFrom::unzip_from)` on a `Result` value, which
maps the `Ok` payload and returns an `Err` value unchanged. -/
def resultInst (f : Value → Option Value) : Value → Option Value
  | Value.vok v => (f v).map Value.vok
  | Value.verr e => some (Value.verr e)
  | _ => none

/-- Peeling one more leaf: if the left-nested pattern of arity `k + 1`
matches `acc` with leaves `out`, then the pattern of arity `k + 1 + |vs|`
matches the value built by pairing the further leaves `vs` onto `acc`,
binding `out ++ vs`. -/
theorem leftMatch_leftValAux (vs : List Value) :
    ∀ (acc : Value) (k : Nat) (out : List Value),
      leftMatch (k + 1) acc = some out →
      leftMatch (k + 1 + vs.length) (leftValAux acc vs) = some (out ++ vs) := by
  induction vs with
  | nil =>
      intro acc k out h
      simpa using h
  | cons b rest ih =>
      intro acc k out h
      have hstep : leftMatch (k + 2) (Value.tuple [acc, b]) = some (out ++ [b]) := by
        simp [leftMatch, h]
      have := ih (Value.tuple [acc, b]) (k + 1) (out ++ [b]) hstep
      simp only [leftValAux, List.length_cons]
      rw [show k + 1 + (rest.length + 1) = k + 1 + 1 + rest.length by omega]
      rw [this]
      simp

/-- Destructuring inverts construction on the left-nested side: the
left-nested pattern of arity `n` applied to the left-nested value built
from `n` leaves binds exactly those leaves in left-to-right order. -/
theorem leftMatch_leftVal (v : Value) (vs : List Value) :
    leftMatch (vs.length + 1) (leftVal v vs) = some (v :: vs) := by
  have := leftMatch_leftValAux vs v 0 [v] rfl
  simpa [leftVal, Nat.add_comm] using this

/-- Destructuring inverts construction on the right-nested side. -/
theorem rightMatch_rightVal : ∀ (v : Value) (vs : List Value),
    rightMatch (vs.length + 1) (rightVal v vs) = some (v :: vs)
  | _, [] => rfl
  | _, [_] => rfl
  | v, b :: c :: rest => by
      have ih := rightMatch_rightVal c rest
      show rightMatch (rest.length + 3) (Value.tuple [v, Value.tuple [b, rightVal c rest]])
        = some (v :: b :: c :: rest)
      simp [rightMatch, ih]

/-- C1 (amended to arities 2..26): for every left-nested value of arity N,
`unzip_from` to the flat N-tuple returns the tuple of the N leaves in
left-to-right reading order — at N = 2 through the identity impl on pairs
(the left-nested shape coincides with the flat pair), and at 3 ≤ N ≤ 26
through the `nested!`-generated left-nested impl. -/
theorem c1_left_nested_flatten (v : Value) (vs : List Value)
    (h1 : 1 ≤ vs.length) (h26 : vs.length + 1 ≤ 26) :
    (vs.length = 1 → unzipTwo (leftVal v vs) = some (Value.tuple (v :: vs)))
    ∧ (2 ≤ vs.length →
        leftInst (vs.length + 1) (leftVal v vs) = some (Value.tuple (v :: vs))) := by
  constructor
  · intro h2
    cases vs with
    | nil => simp at h2
    | cons b rest =>
      cases rest with
      | nil => rfl
      | cons c r2 => simp at h2
  · intro h2
    have hm := leftMatch_leftVal v vs
    simp only [leftInst]
    rw [if_pos (And.intro (by omega) h26), hm]
    rfl

/-- Witness for C1 at the concrete left-nested arity-3 value
`((atom 0, atom 1), atom 2)`. -/
theorem c1_witness :
    leftInst 3 (leftVal (Value.atom 0) [Value.atom 1, Value.atom 2])
      = some (Value.tuple [Value.atom 0, Value.atom 1, Value.atom 2]) :=
  (c1_left_nested_flatten (Value.atom 0) [Value.atom 1, Value.atom 2]
    (by decide) (by decide)).2 (by decide)

/-- C1 counterexample at arity 1: the claim, read at N = 1, requires a
conversion from the bare leaf `e1` (a type variable, here `Ty.base 0`) to
the one-element tuple `(e1,)`; the crate has no such impl — the arity-1
impl `UnzipFrom<(A,)> for (A,)` takes the one-element tuple itself, and
its value-level body rejects a bare (non-1-tuple) leaf value. -/
theorem c1_arity_one_counterexample :
    ¬ UnzipFrom (Ty.tuple [Ty.base 0]) (Ty.base 0)
    ∧ unzipOne (Value.atom 0) = none := by
  constructor
  · intro h
    cases h <;> simp_all
  · rfl

/-- C2 (amended to arities 2..26): for every right-nested value of arity N,
`unzip_from` to the flat N-tuple returns the tuple of the N leaves in
left-to-right reading order — at N = 2 through the identity impl on pairs,
and at 3 ≤ N ≤ 26 through the `nested!`-generated right-nested impl. -/
theorem c2_right_nested_flatten (v : Value) (vs : List Value)
    (h1 : 1 ≤ vs.length) (h26 : vs.length + 1 ≤ 26) :
    (vs.length = 1 → unzipTwo (rightVal v vs) = some (Value.tuple (v :: vs)))
    ∧ (2 ≤ vs.length →
        rightInst (vs.length + 1) (rightVal v vs) = some (Value.tuple (v :: vs))) := by
  constructor
  · intro h2
    cases vs with
    | nil => simp at h2
    | cons b rest =>
      cases rest with
      | nil => rfl
      | cons c r2 => simp at h2
  · intro h2
    have hm := rightMatch_rightVal v vs
    simp only [rightInst]
    rw [if_pos (And.intro (by omega) h26), hm]
    rfl

/-- Witness for C2 at the concrete right-nested arity-3 value
`(atom 0, (atom 1, atom 2))`. -/
theorem c2_witness :
    rightInst 3 (rightVal (Value.atom 0) [Value.atom 1, Value.atom 2])
      = some (Value.tuple [Value.atom 0, Value.atom 1, Value.atom 2]) :=
  (c2_right_nested_flatten (Value.atom 0) [Value.atom 1, Value.atom 2]
    (by decide) (by decide)).2 (by decide)

/-- C2 counterexample at arity 1: the right-nested shape of arity 1 is
also the bare leaf, and no impl converts a bare leaf (type variable
`Ty.base 2`) to the one-element tuple around it. -/
theorem c2_arity_one_counterexample :
    ¬ UnzipFrom (Ty.tuple [Ty.base 2]) (Ty.base 2)
    ∧ unzipOne (Value.atom 2) = none := by
  constructor
  · intro h
    cases h <;> simp_all
  · rfl

/-- C6: at arities 1 and 2 the conversion is the identity — the impls
`UnzipFrom<(A,)> for (A,)` and `UnzipFrom<(A, B)> for (A, B)` return their
argument unchanged, both in the untyped value model and in the typed model
of the pair impl. -/
theorem c6_identity_small_arities (a b : Value) (A B : Type) (p : A × B) :
    unzipOne (Value.tuple [a]) = some (Value.tuple [a])
    ∧ unzipTwo (Value.tuple [a, b]) = some (Value.tuple [a, b])
    ∧ (UnzipFromC.unzip_from p : A × B) = p :=
  ⟨rfl, rfl, rfl⟩

/-- Witness for C6 at concrete one- and two-element tuples. -/
theorem c6_witness :
    unzipOne (Value.tuple [Value.atom 3]) = some (Value.tuple [Value.atom 3])
    ∧ unzipTwo (Value.tuple [Value.atom 3, Value.atom 4])
        = some (Value.tuple [Value.atom 3, Value.atom 4])
    ∧ (UnzipFromC.unzip_from ((3, 4) : Nat × Nat) : Nat × Nat) = (3, 4) :=
  c6_identity_small_arities (Value.atom 3) (Value.atom 4) Nat Nat (3, 4)

/-- C7: the blanket impl `impl<T, U> UnzipInto<T> for U where T: UnzipFrom<U>`
makes `x.unzip_into()` exactly `T::unzip_from(x)` for every pair of types
with the capability — the ergonomic inversion is derived once generically
and adds no behavior. -/
theorem c7_unzip_into_eq_unzip_from {T S : Type} [UnzipFromC T S] (x : S) :
    (UnzipIntoC.unzip_into x : T) = (UnzipFromC.unzip_from x : T) := rfl

/-- Witness for C7 at the pair impl on `Nat × Nat`. -/
theorem c7_witness :
    (UnzipIntoC.unzip_into ((1, 2) : Nat × Nat) : Nat × Nat)
      = (UnzipFromC.unzip_from ((1, 2) : Nat × Nat) : Nat × Nat) :=
  c7_unzip_into_eq_unzip_from ((1, 2) : Nat × Nat)

/-- C10: the conversion is selected by the target type, not the source
value alone — the type `((A, B), C)` converts both to the flat triple
`(A, B, C)` (arity-3 left-nested impl) and, as an arity-2 pair whose first
leaf is `(A, B)`, to itself (arity-2 identity impl); correspondingly the
value `((x, y), z)` flattens to `(x, y, z)` under the arity-3 impl and is
returned unchanged by the arity-2 impl. -/
theorem c10_target_selects (a b c : Ty) (x y z : Value) :
    UnzipFrom (Ty.tuple [a, b, c]) (Ty.tuple [Ty.tuple [a, b], c])
    ∧ UnzipFrom (Ty.tuple [Ty.tuple [a, b], c]) (Ty.tuple [Ty.tuple [a, b], c])
    ∧ leftInst 3 (Value.tuple [Value.tuple [x, y], z]) = some (Value.tuple [x, y, z])
    ∧ unzipTwo (Value.tuple [Value.tuple [x, y], z])
        = some (Value.tuple [Value.tuple [x, y], z]) := by
  refine ⟨?_, UnzipFrom.two _ _, rfl, rfl⟩
  exact UnzipFrom.nestedLeft [a, b, c] (by simp) (by simp)

/-- Witness for C10 at concrete type variables and atoms. -/
theorem c10_witness :
    UnzipFrom (Ty.tuple [Ty.base 0, Ty.base 1, Ty.base 2])
      (Ty.tuple [Ty.tuple [Ty.base 0, Ty.base 1], Ty.base 2])
    ∧ UnzipFrom (Ty.tuple [Ty.tuple [Ty.base 0, Ty.base 1], Ty.base 2])
        (Ty.tuple [Ty.tuple [Ty.base 0, Ty.base 1], Ty.base 2])
    ∧ leftInst 3 (Value.tuple [Value.tuple [Value.atom 0, Value.atom 1], Value.atom 2])
        = some (Value.tuple [Value.atom 0, Value.atom 1, Value.atom 2])
    ∧ unzipTwo (Value.tuple [Value.tuple [Value.atom 0, Value.atom 1], Value.atom 2])
        = some (Value.tuple [Value.tuple [Value.atom 0, Value.atom 1], Value.atom 2]) :=
  c10_target_selects (Ty.base 0) (Ty.base 1) (Ty.base 2)
    (Value.atom 0) (Value.atom 1) (Value.atom 2)

/-- A left-nested type built from a pair accumulator is always a pair. -/
theorem leftTyAux_shape (rest : List Ty) :
    ∀ x y : Ty, ∃ p q : Ty, leftTyAux (Ty.tuple [x, y]) rest = Ty.tuple [p, q] := by
  induction rest with
  | nil => intro x y; exact ⟨x, y, rfl⟩
  | cons c r ih =>
      intro x y
      simpa [leftTyAux] using ih (Ty.tuple [x, y]) c

/-- The left-nested shape of arity at least 2 is a pair at top level. -/
theorem leftTy_shape (tys : List Ty) (h : 2 ≤ tys.length) :
    ∃ p q, leftTy tys = Ty.tuple [p, q] := by
  cases tys with
  | nil => simp at h
  | cons a rest =>
    cases rest with
    | nil => simp at h
    | cons b r2 =>
      show ∃ p q, leftTyAux a (b :: r2) = _
      simpa [leftTyAux] using leftTyAux_shape r2 a b

/-- The right-nested shape of arity at least 2 is a pair at top level. -/
theorem rightTy_shape (tys : List Ty) (h : 2 ≤ tys.length) :
    ∃ p q, rightTy tys = Ty.tuple [p, q] := by
  cases tys with
  | nil => simp at h
  | cons a rest =>
    cases rest with
    | nil => simp at h
    | cons b r2 =>
      cases r2 with
      | nil => exact ⟨a, b, rfl⟩
      | cons c r3 => exact ⟨a, Ty.tuple [b, rightTy (c :: r3)], rfl⟩

/-- C3 (amended): for every arity N in 1..26, the impls with the flat
N-tuple as target are exactly: at N ≤ 2 the single identity impl whose
source is the flat tuple itself (so at N = 1 the source is the one-element
tuple `(e1,)`, not the bare leaf `e1`), and at 3 ≤ N ≤ 26 exactly the
left-nested and the right-nested impl; no other source shape converts to
the flat N-tuple.  At N = 2 the left- and right-nested shapes both equal
the flat pair, so the identity impl is the (single) conversion from each. -/
theorem c3_flat_target_sources (tys : List Ty) (src : Ty)
    (h1 : 1 ≤ tys.length) (h26 : tys.length ≤ 26) :
    (tys.length ≤ 2 → (UnzipFrom (Ty.tuple tys) src ↔ src = Ty.tuple tys))
    ∧ (3 ≤ tys.length →
        (UnzipFrom (Ty.tuple tys) src ↔ src = leftTy tys ∨ src = rightTy tys))
    ∧ (tys.length = 2 → leftTy tys = Ty.tuple tys ∧ rightTy tys = Ty.tuple tys) := by
  refine ⟨?_, ?_, ?_⟩
  · intro hle
    constructor
    · intro h
      cases h
      · rfl
      · rfl
      · exfalso; omega
      · exfalso; omega
    · rintro rfl
      cases tys with
      | nil => simp at h1
      | cons a rest =>
        cases rest with
        | nil => exact UnzipFrom.one a
        | cons b r2 =>
          cases r2 with
          | nil => exact UnzipFrom.two a b
          | cons c r3 => simp at hle
  · intro h3
    constructor
    · intro h
      cases h
      · simp at h3
      · simp at h3
      · exact Or.inl rfl
      · exact Or.inr rfl
    · rintro (rfl | rfl)
      · exact UnzipFrom.nestedLeft tys h3 h26
      · exact UnzipFrom.nestedRight tys h3 h26
  · intro h2
    cases tys with
    | nil => simp at h2
    | cons a rest =>
      cases rest with
      | nil => simp at h2
      | cons b r2 =>
        cases r2 with
        | nil => exact ⟨rfl, rfl⟩
        | cons c r3 => simp at h2

/-- Witness for C3 at arity 3 over concrete type variables: the left-nested
shape is a source for the flat triple. -/
theorem c3_witness :
    UnzipFrom (Ty.tuple [Ty.base 3, Ty.base 4, Ty.base 5])
        (leftTy [Ty.base 3, Ty.base 4, Ty.base 5])
      ↔ (leftTy [Ty.base 3, Ty.base 4, Ty.base 5] = leftTy [Ty.base 3, Ty.base 4, Ty.base 5]
         ∨ leftTy [Ty.base 3, Ty.base 4, Ty.base 5] = rightTy [Ty.base 3, Ty.base 4, Ty.base 5]) :=
  ((c3_flat_target_sources [Ty.base 3, Ty.base 4, Ty.base 5]
    (leftTy [Ty.base 3, Ty.base 4, Ty.base 5]) (by simp) (by simp)).2.1 (by simp))

/-- C3 counterexample at arity 1: the claim says the arity-1 conversion is
from the bare leaf `e1` (type variable `Ty.base 1`) to the one-element
tuple; no impl has the bare leaf as source — the arity-1 impl's source is
the one-element tuple itself. -/
theorem c3_arity_one_counterexample :
    ¬ UnzipFrom (Ty.tuple [Ty.base 1]) (Ty.base 1) := by
  intro h
  cases h <;> simp_all

/-- C4: the `Option` lifter, defined once generically over any inner
capability, maps an absent optional to an absent optional and a present
optional to a present optional wrapping the flattened payload — in the
typed model, in the untyped value model, and composed with the arity-5
left-nested impl with no per-arity instance. -/
theorem c4_option_lifter :
    (∀ (S T : Type) [UnzipFromC T S],
        (UnzipFromC.unzip_from (none : Option S) : Option T) = none
        ∧ ∀ x : S, (UnzipFromC.unzip_from (some x : Option S) : Option T)
            = some (UnzipFromC.unzip_from x))
    ∧ (∀ f : Value → Option Value, optionInst f Value.vnone = some Value.vnone)
    ∧ (∀ (f : Value → Option Value) (x w : Value), f x = some w →
        optionInst f (Value.vsome x) = some (Value.vsome w))
    ∧ (∀ tys : List Ty, tys.length = 5 →
        UnzipFrom (Ty.option (Ty.tuple tys)) (Ty.option (leftTy tys)))
    ∧ (∀ (x1 x2 x3 x4 x5 : Value),
        optionInst (leftInst 5) (Value.vsome (leftVal x1 [x2, x3, x4, x5]))
          = some (Value.vsome (Value.tuple [x1, x2, x3, x4, x5]))) := by
  refine ⟨?_, ?_, ?_, ?_, ?_⟩
  · intro S T inst
    exact ⟨rfl, fun x => rfl⟩
  · intro f; rfl
  · intro f x w h
    simp [optionInst, h]
  · intro tys h5
    exact UnzipFrom.optionLift (UnzipFrom.nestedLeft tys (by omega) (by omega))
  · intro x1 x2 x3 x4 x5
    rfl

/-- Witness for C4: a present optional of a concrete left-nested triple
flattens inside the wrapper, and the lifted arity-5 capability exists. -/
theorem c4_witness :
    optionInst (fun v => leftInst 3 v)
        (Value.vsome (Value.tuple [Value.tuple [Value.atom 0, Value.atom 1], Value.atom 2]))
      = some (Value.vsome (Value.tuple [Value.atom 0, Value.atom 1, Value.atom 2]))
    ∧ UnzipFrom
        (Ty.option (Ty.tuple [Ty.base 0, Ty.base 1, Ty.base 2, Ty.base 3, Ty.base 4]))
        (Ty.option (leftTy [Ty.base 0, Ty.base 1, Ty.base 2, Ty.base 3, Ty.base 4])) :=
  ⟨c4_option_lifter.2.2.1 (fun v => leftInst 3 v)
      (Value.tuple [Value.tuple [Value.atom 0, Value.atom 1], Value.atom 2])
      (Value.tuple [Value.atom 0, Value.atom 1, Value.atom 2]) rfl,
   c4_option_lifter.2.2.2.1 [Ty.base 0, Ty.base 1, Ty.base 2, Ty.base 3, Ty.base 4] (by simp)⟩

/-- C5: the `Result` lifter, defined once generically over any inner
capability and any error type `E` (no bound on `E` is required), returns an
error variant carrying the identical, untouched error value, and maps a
success variant to a success variant wrapping the flattened payload. -/
theorem c5_result_lifter :
    (∀ (S T E : Type) [UnzipFromC T S] (e : E),
        (UnzipFromC.unzip_from (Except.error e : Except E S) : Except E T) = Except.error e)
    ∧ (∀ (S T E : Type) [UnzipFromC T S] (x : S),
        (UnzipFromC.unzip_from (Except.ok x : Except E S) : Except E T)
          = Except.ok (UnzipFromC.unzip_from x))
    ∧ (∀ (f : Value → Option Value) (e : Value),
        resultInst f (Value.verr e) = some (Value.verr e))
    ∧ (∀ (f : Value → Option Value) (x w : Value), f x = some w →
        resultInst f (Value.vok x) = some (Value.vok w)) := by
  refine ⟨?_, ?_, ?_, ?_⟩
  · intro S T E inst e; rfl
  · intro S T E inst x; rfl
  · intro f e; rfl
  · intro f x w h
    simp [resultInst, h]

/-- Witness for C5: a success variant holding a concrete left-nested triple
flattens inside the wrapper, and an error variant is returned unchanged. -/
theorem c5_witness :
    resultInst (fun v => leftInst 3 v)
        (Value.vok (Value.tuple [Value.tuple [Value.atom 5, Value.atom 6], Value.atom 7]))
      = some (Value.vok (Value.tuple [Value.atom 5, Value.atom 6, Value.atom 7]))
    ∧ resultInst (fun v => leftInst 3 v) (Value.verr (Value.atom 8))
        = some (Value.verr (Value.atom 8)) :=
  ⟨c5_result_lifter.2.2.2 (fun v => leftInst 3 v)
      (Value.tuple [Value.tuple [Value.atom 5, Value.atom 6], Value.atom 7])
      (Value.tuple [Value.atom 5, Value.atom 6, Value.atom 7]) rfl,
   c5_result_lifter.2.2.1 (fun v => leftInst 3 v) (Value.atom 8)⟩

/-- C8: static rejection — no impl targets a flat tuple of arity 27; the
mixed shape `((A, B), C, D)` (a 3-tuple with an inner pair) has no impl
converting it to the flat 4-tuple of its leaves, and indeed is no impl's
source at all; and a left pairing inside a right spine,
`(A, ((B, C), D))`, has no impl converting it to the flat 4-tuple of its
leaves.  In the model rejection is the plain absence of the conversion
relation — there is no runtime error or sentinel value to return. -/
theorem c8_static_rejection :
    (∀ (tys : List Ty) (src : Ty), tys.length = 27 → ¬ UnzipFrom (Ty.tuple tys) src)
    ∧ (∀ (a b c d : Ty),
        ¬ UnzipFrom (Ty.tuple [a, b, c, d]) (Ty.tuple [Ty.tuple [a, b], c, d]))
    ∧ (∀ tgt : Ty,
        ¬ UnzipFrom tgt (Ty.tuple [Ty.tuple [Ty.base 0, Ty.base 1], Ty.base 2, Ty.base 3]))
    ∧ ¬ UnzipFrom (Ty.tuple [Ty.base 0, Ty.base 1, Ty.base 2, Ty.base 3])
        (Ty.tuple [Ty.base 0, Ty.tuple [Ty.tuple [Ty.base 1, Ty.base 2], Ty.base 3]]) := by
  refine ⟨?_, ?_, ?_, ?_⟩
  · intro tys src h27 h
    cases h
    · simp at h27
    · simp at h27
    · omega
    · omega
  · intro a b c d h
    generalize hsrc : Ty.tuple [Ty.tuple [a, b], c, d] = src at h
    cases h with
    | nestedLeft tys h3 h26 =>
        simp [leftTy, leftTyAux] at hsrc
    | nestedRight tys h3 h26 =>
        simp [rightTy] at hsrc
  · intro tgt h
    generalize hsrc :
      Ty.tuple [Ty.tuple [Ty.base 0, Ty.base 1], Ty.base 2, Ty.base 3] = src at h
    cases h with
    | one a => simp at hsrc
    | two a b => simp at hsrc
    | nestedLeft tys h3 h26 =>
        obtain ⟨p, q, hpq⟩ := leftTy_shape tys (by omega)
        rw [hpq] at hsrc
        simp at hsrc
    | nestedRight tys h3 h26 =>
        obtain ⟨p, q, hpq⟩ := rightTy_shape tys (by omega)
        rw [hpq] at hsrc
        simp at hsrc
    | optionLift h => simp at hsrc
    | resultLift e h => simp at hsrc
  · intro h
    generalize hsrc :
      Ty.tuple [Ty.base 0, Ty.tuple [Ty.tuple [Ty.base 1, Ty.base 2], Ty.base 3]] = src at h
    cases h with
    | nestedLeft tys h3 h26 =>
        simp [leftTy, leftTyAux] at hsrc
    | nestedRight tys h3 h26 =>
        simp [rightTy] at hsrc

/-- Witness for C8 at the concrete arity-27 target whose components are all
the same type variable: no impl converts its left-nested shape (or
anything else) to it. -/
theorem c8_witness :
    ¬ UnzipFrom (Ty.tuple (List.replicate 27 (Ty.base 0)))
        (leftTy (List.replicate 27 (Ty.base 0))) :=
  c8_static_rejection.1 (List.replicate 27 (Ty.base 0))
    (leftTy (List.replicate 27 (Ty.base 0))) (by simp)

/-- C9: the wrapper lifters compose with each other — for any inner
capability, doubly wrapped types such as `Option<Option<S>>`,
`Result<Option<S>, E>` or `Option<Result<S, E>>` have the lifted
capability, and on values each wrapper layer is preserved structurally. -/
theorem c9_lifters_compose (u t e : Ty) (h : UnzipFrom u t) :
    UnzipFrom (Ty.option (Ty.option u)) (Ty.option (Ty.option t))
    ∧ UnzipFrom (Ty.result (Ty.option u) e) (Ty.result (Ty.option t) e)
    ∧ UnzipFrom (Ty.option (Ty.result u e)) (Ty.option (Ty.result t e))
    ∧ (∀ (f : Value → Option Value) (x w : Value), f x = some w →
        optionInst (optionInst f) (Value.vsome (Value.vsome x))
          = some (Value.vsome (Value.vsome w))
        ∧ resultInst (optionInst f) (Value.vok (Value.vsome x))
          = some (Value.vok (Value.vsome w)))
    ∧ (∀ f : Value → Option Value,
        optionInst (optionInst f) (Value.vsome Value.vnone) = some (Value.vsome Value.vnone)
        ∧ optionInst (optionInst f) Value.vnone = some Value.vnone
        ∧ ∀ er : Value, optionInst (resultInst f) (Value.vsome (Value.verr er))
            = some (Value.vsome (Value.verr er))) := by
  refine ⟨UnzipFrom.optionLift (UnzipFrom.optionLift h),
    UnzipFrom.resultLift e (UnzipFrom.optionLift h),
    UnzipFrom.optionLift (UnzipFrom.resultLift e h), ?_, ?_⟩
  · intro f x w hfx
    constructor
    · simp [optionInst, hfx]
    · simp [resultInst, optionInst, hfx]
  · intro f
    exact ⟨rfl, rfl, fun er => rfl⟩

/-- Witness for C9 at the concrete arity-2 identity capability on
`(A, B)`: the doubly lifted `Option<Option<(A, B)>>` capability exists. -/
theorem c9_witness :
    UnzipFrom (Ty.option (Ty.option (Ty.tuple [Ty.base 0, Ty.base 1])))
      (Ty.option (Ty.option (Ty.tuple [Ty.base 0, Ty.base 1]))) :=
  (c9_lifters_compose (Ty.tuple [Ty.base 0, Ty.base 1]) (Ty.tuple [Ty.base 0, Ty.base 1])
    (Ty.base 9) (UnzipFrom.two (Ty.base 0) (Ty.base 1))).1

end Zipped
